import Mathlib

/-!
Verification of the shortuuid base-N codec (`shortuuid/main.py`).

The embedding below models the codec shallowly:

* Python `str` values are `List Char` (symbol sequences); the canonical
  alphabet string kept in `_alphabet_str` is a Lean `String`.
* A UUID is its 128-bit unsigned integer value, a `Nat`; the external
  documented contract of the external `uuid.UUID` constructor (accepting
  exactly the integers below `2 ^ 128`) is modelled in `ShortUUID.decode`.
* Python exceptions become `Except` results.  `ValueError` raised by
  `string_to_int` carries the offending character.
* `math.ceil(math.log(N, base))` for the integer arguments used here is
  modelled exactly as the least `k` with `N ≤ base ^ k`; the floating-point
  expression in CPython agrees with this exact ceiling for these operands
  across all alphabet sizes.
-/

namespace Shortuuid

/-- Python `InvalidAlphabetError` / `InvalidInputError` (subclasses of
`ShortUUIDError` in main.py). -/
inductive SUError where
  | invalidAlphabet
  | invalidInput
deriving DecidableEq, Repr

/-- The errors a `decode` call can surface: the `ValueError` raised by
`string_to_int` for a symbol outside the alphabet (carrying that symbol), and
the `ValueError` raised by the external `uuid.UUID(int=...)` constructor when
the decoded integer does not fit in 128 bits. -/
inductive DecodeError where
  | invalidCharacter (c : Char)
  | uuidOutOfRange
deriving DecidableEq, Repr

/-- The default alphabet `DEFAULT_ALPHABET` from main.py: 57 symbols,
ambiguous characters removed. -/
def DEFAULT_ALPHABET : List Char :=
  "23456789ABCDEFGHJKLMNPQRSTUVWXYZabcdefghijkmnopqrstuvwxyz".toList

/-- The `while number:` digit loop of `int_to_string`, producing the digit
indices least-significant first.  The loop is structural on a fuel argument so
that it evaluates in the kernel; `number` itself is enough fuel because each
iteration at least halves the number when the alphabet has two or more
symbols (callers guarantee this, as `set_alphabet` rejects smaller ones). -/
def digits_fuel (alpha_len : Nat) : Nat → Nat → List Nat
  | 0, _ => []
  | fuel + 1, number =>
    if number = 0 then []
    else number % alpha_len :: digits_fuel alpha_len fuel (number / alpha_len)

/-- Digit indices of `number` in base `alpha_len`, least-significant first:
the contents of `output` after the loop of `int_to_string`. -/
def int_to_string_digits (alpha_len number : Nat) : List Nat :=
  digits_fuel alpha_len number number

/-- Model of `int_to_string(number, alphabet, padding)` from main.py.  Digit symbols
are accumulated least-significant first, then `alphabet[0] * remainder` is
appended when `padding` is truthy (the Python test `if padding:` is false both for
`None` and for `0`), and the result is reversed (`output[::-1]`), which puts
the padding on the most-significant side.  `remainder = max(padding -
len(output), 0)` is truncated subtraction on `Nat`. -/
def int_to_string (number : Nat) (alphabet : List Char) (padding : Option Nat) :
    List Char :=
  let output :=
    (int_to_string_digits alphabet.length number).map (fun d => alphabet.getD d ' ')
  let padded :=
    match padding with
    | none => output
    | some p =>
      if p = 0 then output
      else output ++ List.replicate (p - output.length) (alphabet.getD 0 ' ')
  padded.reverse

/-- The pairs produced by `enumerate(alphabet)` starting at index `i`,
swapped into `(char, idx)` order as the dict comprehension
`{char: idx for idx, char in enumerate(alphabet)}` stores them. -/
def build_from (i : Nat) : List Char → List (Char × Nat)
  | [] => []
  | c :: rest => (c, i) :: build_from (i + 1) rest

/-- The alphabet-index dict `{char: idx for idx, char in enumerate(alphabet)}`
as an association list in insertion order. -/
def build_alphabet_index (alphabet : List Char) : List (Char × Nat) :=
  build_from 0 alphabet

/-- Python dict lookup on the association list: later bindings overwrite
earlier ones, so the last matching pair wins. -/
def dict_get (d : List (Char × Nat)) (c : Char) : Option Nat :=
  (d.reverse.find? (fun p => p.1 == c)).map (fun p => p.2)

/-- The `for char in string:` fold of `string_to_int`:
`number = number * alpha_len + alphabet_index[char]`, where a missing key
raises a ValueError whose message names the offending character, modelled
as `.error` carrying that character. -/
def string_to_int_go (alpha_len : Nat) (index : List (Char × Nat)) :
    Nat → List Char → Except Char Nat
  | number, [] => .ok number
  | number, c :: rest =>
    match dict_get index c with
    | none => .error c
    | some i => string_to_int_go alpha_len index (number * alpha_len + i) rest

/-- Model of `string_to_int(string, alphabet, alphabet_index)` from main.py.  When no
index is supplied it is built from `alphabet` exactly as the dict
comprehension does. -/
def string_to_int (string : List Char) (alphabet : List Char)
    (alphabet_index : Option (List (Char × Nat))) : Except Char Nat :=
  let index := alphabet_index.getD (build_alphabet_index alphabet)
  string_to_int_go alphabet.length index 0 string

/-- Key order of `dict.fromkeys(alphabet)`: first occurrence order, later
duplicates skipped.  `seen` records the keys already inserted. -/
def dict_fromkeys_go (seen : List Char) : List Char → List Char
  | [] => []
  | c :: rest =>
    if c ∈ seen then dict_fromkeys_go seen rest
    else c :: dict_fromkeys_go (c :: seen) rest

/-- Model of `list(dict.fromkeys(alphabet))`: the distinct symbols in first-occurrence
order. -/
def dict_fromkeys (l : List Char) : List Char :=
  dict_fromkeys_go [] l

/-- Model of `list(sorted(set(alphabet)))`: the distinct symbols in ascending
order (Python compares characters by code point, as the order on `Char`
does). -/
def sorted_set (l : List Char) : List Char :=
  List.insertionSort (· ≤ ·) (dict_fromkeys l)

/-- The normalization line of `set_alphabet`:
`list(dict.fromkeys(alphabet)) if dont_sort_alphabet else list(sorted(set(alphabet)))`. -/
def normalize_alphabet (alphabet : List Char) (dont_sort_alphabet : Bool) :
    List Char :=
  if dont_sort_alphabet then dict_fromkeys alphabet else sorted_set alphabet

/-- Exact model of `int(math.ceil(math.log(N, base)))` for integer operands:
search the least exponent `k` with `N ≤ base ^ k`.  `p` is `base ^ k` and the
fuel bounds the search; callers pass fuel large enough that a valid base
(`2 ≤ base`) always terminates the search early. -/
def ceil_log_go (base N : Nat) : Nat → Nat → Nat → Nat
  | 0, _, k => k
  | fuel + 1, p, k =>
    if N ≤ p then k else ceil_log_go base N fuel (p * base) (k + 1)

/-- Cached length `self._length = int(math.ceil(math.log(2**128, self._alpha_len)))`:
the least `k` with `2 ^ 128 ≤ alpha_len ^ k`.  Fuel 129 suffices because
`alpha_len ^ 128 ≥ 2 ^ 128` for every valid alphabet. -/
def pad_length_for (alpha_len : Nat) : Nat :=
  ceil_log_go alpha_len (2 ^ 128) 129 1 0

/-- The `__slots__` state of a `ShortUUID` instance. -/
structure ShortUUID where
  _alphabet : List Char
  _alphabet_str : String
  _alpha_len : Nat
  _alphabet_index : List (Char × Nat)
  _length : Nat
deriving DecidableEq, Repr

/-- Model of `ShortUUID.set_alphabet` (also the body of `__init__`).  The length
validation precedes every slot assignment in the source, so a failing call
raises before writing any state; the pure model therefore returns the error
before constructing a state. -/
def set_alphabet (alphabet : List Char) (dont_sort_alphabet : Bool) :
    Except SUError ShortUUID :=
  let new_alphabet := normalize_alphabet alphabet dont_sort_alphabet
  if new_alphabet.length ≤ 1 then .error .invalidAlphabet
  else
    .ok ⟨new_alphabet, String.mk new_alphabet, new_alphabet.length,
      build_alphabet_index new_alphabet, pad_length_for new_alphabet.length⟩

/-- Calling `set_alphabet` on an existing instance: on success every slot is
replaced; on failure the exception propagates before any slot is assigned,
so the instance keeps its previous state. -/
def set_alphabet_on (self : ShortUUID) (alphabet : List Char)
    (dont_sort_alphabet : Bool) : ShortUUID × Option SUError :=
  match set_alphabet alphabet dont_sort_alphabet with
  | .ok s => (s, none)
  | .error e => (self, some e)

/-- Model of `ShortUUID.encode(uuid, pad_length)`.  The `isinstance` guard raising
`InvalidInputError` is a runtime type check subsumed by the `Nat` argument
type (the `int` value of the UUID); `pad_length=None` defaults to the cached
`self._length`. -/
def ShortUUID.encode (self : ShortUUID) (uuid : Nat) (pad_length : Option Nat) :
    List Char :=
  int_to_string uuid self._alphabet (some (pad_length.getD self._length))

/-- Model of `ShortUUID.decode(string, legacy)`.  The `isinstance` guard is subsumed by
the argument type; `legacy=True` reverses the input first.  The final
`uuid.UUID(int=...)` call is the external UUID primitive, which per its
documented 128-bit contract accepts exactly the integers below `2 ^ 128` and
raises `ValueError` otherwise. -/
def ShortUUID.decode (self : ShortUUID) (string : List Char) (legacy : Bool) :
    Except DecodeError Nat :=
  let string := if legacy then string.reverse else string
  match string_to_int string self._alphabet (some self._alphabet_index) with
  | .error c => .error (.invalidCharacter c)
  | .ok n => if n < 2 ^ 128 then .ok n else .error .uuidOutOfRange

/-- Model of `ShortUUID.get_alphabet`. -/
def ShortUUID.get_alphabet (self : ShortUUID) : String :=
  self._alphabet_str

/-- Model of `ShortUUID.encoded_length(num_bytes=16)`:
`int(math.ceil(math.log(256) / math.log(alpha_len) * num_bytes))`, i.e. the
exact ceiling of `log_alpha_len (256 ^ num_bytes)`, modelled as the least `k`
with `256 ^ num_bytes ≤ alpha_len ^ k`. -/
def ShortUUID.encoded_length (self : ShortUUID) (num_bytes : Nat) : Nat :=
  ceil_log_go self._alpha_len (256 ^ num_bytes) (8 * num_bytes + 1) 1 0

/-- The module-level instance `_global_instance = ShortUUID()`, constructed
with the default alphabet.  The error branch is unreachable (the default
alphabet has 57 distinct symbols). -/
def _global_instance : ShortUUID :=
  match set_alphabet DEFAULT_ALPHABET false with
  | .ok s => s
  | .error _ => ⟨[], "", 0, [], 0⟩

/-! ### The digit loop agrees with `Nat.digits` -/

theorem digits_fuel_eq_digits {b : Nat} (hb : 2 ≤ b) :
    ∀ fuel n, n ≤ fuel → digits_fuel b fuel n = Nat.digits b n := by
  intro fuel
  induction fuel with
  | zero =>
    intro n hn
    have h0 : n = 0 := Nat.le_zero.mp hn
    subst h0
    simp [digits_fuel]
  | succ f ih =>
    intro n hn
    by_cases h0 : n = 0
    · subst h0; simp [digits_fuel]
    · have hpos : 0 < n := Nat.pos_of_ne_zero h0
      have hlt : n / b < n := Nat.div_lt_self hpos (by omega)
      rw [digits_fuel, if_neg h0, Nat.digits_def' (show 1 < b by omega) hpos,
        ih (n / b) (by omega)]

theorem int_to_string_digits_eq {b : Nat} (hb : 2 ≤ b) (n : Nat) :
    int_to_string_digits b n = Nat.digits b n :=
  digits_fuel_eq_digits hb n n le_rfl

/-! ### Association-list model of the alphabet-index dict -/

theorem find?_append_eq {α : Type} (p : α → Bool) :
    ∀ l₁ l₂ : List α,
      List.find? p (l₁ ++ l₂) =
        match List.find? p l₁ with
        | some x => some x
        | none => List.find? p l₂ := by
  intro l₁ l₂
  induction l₁ with
  | nil => simp
  | cons a t ih =>
    by_cases h : p a
    · simp [List.find?_cons, h]
    · simp [List.find?_cons, h, ih]

theorem dict_get_cons_of_some {d : List (Char × Nat)} {c : Char} {v : Nat}
    (p : Char × Nat) (h : dict_get d c = some v) :
    dict_get (p :: d) c = some v := by
  unfold dict_get at h ⊢
  rw [List.reverse_cons, find?_append_eq]
  cases hf : d.reverse.find? (fun q => q.1 == c) with
  | none => rw [hf] at h; simp at h
  | some q => rw [hf] at h; simpa using h

theorem dict_get_cons_of_none {d : List (Char × Nat)} {c : Char}
    (p : Char × Nat) (h : dict_get d c = none) :
    dict_get (p :: d) c = if p.1 == c then some p.2 else none := by
  unfold dict_get at h ⊢
  have hf : d.reverse.find? (fun q => q.1 == c) = none := by
    cases hf : d.reverse.find? (fun q => q.1 == c) with
    | none => rfl
    | some q => rw [hf] at h; simp at h
  rw [List.reverse_cons, find?_append_eq, hf]
  by_cases hp : p.1 == c
  · simp [List.find?_cons, hp]
  · simp [List.find?_cons, hp]

theorem dict_get_build_from_of_not_mem {c : Char} :
    ∀ (l : List Char) (j : Nat), c ∉ l → dict_get (build_from j l) c = none := by
  intro l
  induction l with
  | nil => intro j _; rfl
  | cons x t ih =>
    intro j h
    rw [List.mem_cons] at h
    push_neg at h
    rw [build_from, dict_get_cons_of_none _ (ih (j + 1) h.2)]
    simp [beq_iff_eq]
    exact fun e => absurd e.symm h.1

theorem dict_get_build_from_isSome {c : Char} :
    ∀ (l : List Char) (j : Nat), c ∈ l → (dict_get (build_from j l) c).isSome := by
  intro l
  induction l with
  | nil => intro j h; simp at h
  | cons x t ih =>
    intro j h
    by_cases ht : c ∈ t
    · obtain ⟨v, hv⟩ := Option.isSome_iff_exists.mp (ih (j + 1) ht)
      rw [build_from, dict_get_cons_of_some _ hv]
      rfl
    · have hx : c = x := by
        rcases List.mem_cons.mp h with h' | h'
        · exact h'
        · exact absurd h' ht
      subst hx
      rw [build_from, dict_get_cons_of_none _ (dict_get_build_from_of_not_mem t (j + 1) ht)]
      simp

theorem dict_get_build_from_nodup {A : List Char} :
    ∀ (j d : Nat), A.Nodup → d < A.length →
      dict_get (build_from j A) (A.getD d ' ') = some (j + d) := by
  induction A with
  | nil => intro j d _ hd; simp at hd
  | cons x t ih =>
    intro j d hnd hd
    rw [List.nodup_cons] at hnd
    cases d with
    | zero =>
      show dict_get (build_from j (x :: t)) x = some j
      rw [build_from, dict_get_cons_of_none _ (dict_get_build_from_of_not_mem t (j + 1) hnd.1)]
      simp
    | succ d =>
      have hd' : d < t.length := by simpa using hd
      show dict_get (build_from j (x :: t)) (t.getD d ' ') = some (j + (d + 1))
      rw [build_from, dict_get_cons_of_some _ (ih (j + 1) d hnd.2 hd')]
      congr 1
      omega

/-! ### The decoding fold -/

theorem string_to_int_go_append (b : Nat) (idx : List (Char × Nat)) :
    ∀ (xs ys : List Char) (acc : Nat),
      string_to_int_go b idx acc (xs ++ ys) =
        match string_to_int_go b idx acc xs with
        | .ok m => string_to_int_go b idx m ys
        | .error e => .error e := by
  intro xs
  induction xs with
  | nil => intro ys acc; rfl
  | cons c t ih =>
    intro ys acc
    cases h : dict_get idx c with
    | none => simp [string_to_int_go, h]
    | some i => simp [string_to_int_go, h, ih]

theorem string_to_int_go_replicate (b : Nat) (idx : List (Char × Nat)) (c0 : Char)
    (h0 : dict_get idx c0 = some 0) :
    ∀ k, string_to_int_go b idx 0 (List.replicate k c0) = .ok 0 := by
  intro k
  induction k with
  | zero => rfl
  | succ k ih => simpa [List.replicate_succ, string_to_int_go, h0] using ih

theorem string_to_int_go_digits (A : List Char) (hnd : A.Nodup) :
    ∀ (ds : List Nat) (acc : Nat), (∀ d ∈ ds, d < A.length) →
      string_to_int_go A.length (build_alphabet_index A) acc
        ((ds.map (fun d => A.getD d ' ')).reverse) =
      .ok (acc * A.length ^ ds.length + Nat.ofDigits A.length ds) := by
  intro ds
  induction ds with
  | nil => intro acc _; simp [string_to_int_go, Nat.ofDigits_nil]
  | cons d t ih =>
    intro acc h
    have hd : d < A.length := h d (List.mem_cons_self d t)
    have ht : ∀ x ∈ t, x < A.length := fun x hx => h x (List.mem_cons_of_mem _ hx)
    have hlook : dict_get (build_alphabet_index A) (A.getD d ' ') = some d := by
      simpa using dict_get_build_from_nodup 0 d hnd hd
    rw [List.map_cons, List.reverse_cons, string_to_int_go_append, ih acc ht]
    show string_to_int_go A.length (build_alphabet_index A) _ [A.getD d ' '] = _
    simp only [string_to_int_go, hlook, Nat.ofDigits_cons, List.length_cons]
    congr 1
    push_cast [Nat.pow_succ]
    ring

/-! ### Shape and length of `int_to_string` output -/

theorem int_to_string_shape (n : Nat) (A : List Char) (p : Nat) :
    int_to_string n A (some p) =
      List.replicate (p - (int_to_string_digits A.length n).length) (A.getD 0 ' ')
        ++ ((int_to_string_digits A.length n).map (fun d => A.getD d ' ')).reverse := by
  by_cases hp : p = 0
  · subst hp; simp [int_to_string]
  · simp [int_to_string, hp, List.reverse_append, List.reverse_replicate]

theorem int_to_string_none (n : Nat) (A : List Char) :
    int_to_string n A none =
      ((int_to_string_digits A.length n).map (fun d => A.getD d ' ')).reverse := by
  simp [int_to_string]

/-! ### Round-trip core -/

theorem string_to_int_int_to_string (A : List Char) (hnd : A.Nodup)
    (hb : 2 ≤ A.length) (n p : Nat) :
    string_to_int (int_to_string n A (some p)) A (some (build_alphabet_index A)) =
      .ok n := by
  have h0 : dict_get (build_alphabet_index A) (A.getD 0 ' ') = some 0 := by
    simpa using dict_get_build_from_nodup 0 0 hnd (by omega)
  rw [int_to_string_shape]
  show string_to_int_go A.length (build_alphabet_index A) 0 _ = .ok n
  rw [string_to_int_go_append, string_to_int_go_replicate _ _ _ h0,
    int_to_string_digits_eq hb]
  show string_to_int_go A.length (build_alphabet_index A) 0
      ((List.map (fun d => A.getD d ' ') (Nat.digits A.length n)).reverse) = .ok n
  rw [string_to_int_go_digits A hnd _ 0
    (fun d hd => Nat.digits_lt_base (by omega) hd)]
  simp [Nat.ofDigits_digits]

/-! ### Normalization facts -/

theorem mem_dict_fromkeys_go :
    ∀ (l seen : List Char) (x : Char),
      x ∈ dict_fromkeys_go seen l ↔ x ∈ l ∧ x ∉ seen := by
  intro l
  induction l with
  | nil => intro seen x; simp [dict_fromkeys_go]
  | cons c t ih =>
    intro seen x
    by_cases hc : c ∈ seen
    · rw [dict_fromkeys_go, if_pos hc, ih, List.mem_cons]
      constructor
      · rintro ⟨hx, hs⟩; exact ⟨Or.inr hx, hs⟩
      · rintro ⟨hx | hx, hs⟩
        · exact absurd (hx ▸ hc) hs
        · exact ⟨hx, hs⟩
    · rw [dict_fromkeys_go, if_neg hc, List.mem_cons, ih, List.mem_cons, List.mem_cons]
      constructor
      · rintro (rfl | ⟨hx, hs⟩)
        · exact ⟨Or.inl rfl, hc⟩
        · refine ⟨Or.inr hx, fun h => hs (Or.inr h)⟩
      · rintro ⟨rfl | hx, hs⟩
        · exact Or.inl rfl
        · by_cases hxc : x = c
          · exact Or.inl hxc
          · exact Or.inr ⟨hx, fun h => (h.elim hxc fun h' => hs h')⟩

theorem nodup_dict_fromkeys_go :
    ∀ (l seen : List Char), (dict_fromkeys_go seen l).Nodup := by
  intro l
  induction l with
  | nil => intro seen; simp [dict_fromkeys_go]
  | cons c t ih =>
    intro seen
    by_cases hc : c ∈ seen
    · simpa [dict_fromkeys_go, hc] using ih seen
    · rw [dict_fromkeys_go, if_neg hc, List.nodup_cons]
      refine ⟨fun hmem => ?_, ih (c :: seen)⟩
      exact ((mem_dict_fromkeys_go t (c :: seen) c).1 hmem).2 (List.mem_cons_self c seen)

theorem mem_dict_fromkeys (l : List Char) (x : Char) :
    x ∈ dict_fromkeys l ↔ x ∈ l := by
  simp [dict_fromkeys, mem_dict_fromkeys_go]

theorem nodup_dict_fromkeys (l : List Char) : (dict_fromkeys l).Nodup :=
  nodup_dict_fromkeys_go l []

theorem nodup_sorted_set (l : List Char) : (sorted_set l).Nodup :=
  (List.perm_insertionSort _ _).nodup_iff.mpr (nodup_dict_fromkeys l)

theorem mem_sorted_set (l : List Char) (x : Char) :
    x ∈ sorted_set l ↔ x ∈ l := by
  simp [sorted_set, List.mem_insertionSort, mem_dict_fromkeys]

theorem nodup_normalize (a : List Char) (f : Bool) :
    (normalize_alphabet a f).Nodup := by
  cases f <;> simp [normalize_alphabet, nodup_sorted_set, nodup_dict_fromkeys]

theorem mem_normalize (a : List Char) (f : Bool) (x : Char) :
    x ∈ normalize_alphabet a f ↔ x ∈ a := by
  cases f <;> simp [normalize_alphabet, mem_sorted_set, mem_dict_fromkeys]

/-! ### States produced by `set_alphabet` -/

theorem set_alphabet_ok_state {a : List Char} {f : Bool} {su : ShortUUID}
    (h : set_alphabet a f = .ok su) :
    su._alphabet = normalize_alphabet a f ∧
    su._alphabet_index = build_alphabet_index (normalize_alphabet a f) ∧
    su._alpha_len = (normalize_alphabet a f).length ∧
    su._length = pad_length_for (normalize_alphabet a f).length ∧
    su._alphabet_str = String.mk (normalize_alphabet a f) ∧
    2 ≤ (normalize_alphabet a f).length := by
  unfold set_alphabet at h
  by_cases hlen : (normalize_alphabet a f).length ≤ 1
  · rw [if_pos hlen] at h
    exact absurd h (by simp)
  · rw [if_neg hlen] at h
    injection h with h
    subst h
    exact ⟨rfl, rfl, rfl, rfl, rfl, by omega⟩

theorem set_alphabet_error_of_short {a : List Char} {f : Bool}
    (h : (normalize_alphabet a f).length ≤ 1) :
    set_alphabet a f = .error .invalidAlphabet := by
  unfold set_alphabet
  rw [if_pos h]

/-! ### Decode after encode -/

theorem decode_encode_core {a : List Char} {f : Bool} {su : ShortUUID}
    (h : set_alphabet a f = .ok su) (u : Nat) (hu : u < 2 ^ 128) (p : Option Nat) :
    su.decode (su.encode u p) false = .ok u := by
  obtain ⟨ha, hidx, -, -, -, hlen2⟩ := set_alphabet_ok_state h
  unfold ShortUUID.decode ShortUUID.encode
  rw [ha, hidx]
  show (match string_to_int
      (int_to_string u (normalize_alphabet a f) (some (p.getD su._length)))
      (normalize_alphabet a f)
      (some (build_alphabet_index (normalize_alphabet a f))) with
    | .error c => Except.error (DecodeError.invalidCharacter c)
    | .ok n => if n < 2 ^ 128 then Except.ok n else Except.error DecodeError.uuidOutOfRange) =
    Except.ok u
  rw [string_to_int_int_to_string _ (nodup_normalize a f) hlen2]
  simp
  exact hu

/-! ### The exact ceiling logarithm -/

theorem ceil_log_go_le {b N : Nat} :
    ∀ (fuel p k : Nat), k ≤ ceil_log_go b N fuel p k := by
  intro fuel
  induction fuel with
  | zero => intro p k; exact le_rfl
  | succ f ih =>
    intro p k
    rw [ceil_log_go]
    by_cases h : N ≤ p
    · rw [if_pos h]
    · rw [if_neg h]
      exact le_trans (by omega) (ih (p * b) (k + 1))

theorem ceil_log_go_spec {b N : Nat} :
    ∀ (fuel p k : Nat), N ≤ p * b ^ fuel →
      N ≤ p * b ^ (ceil_log_go b N fuel p k - k) := by
  intro fuel
  induction fuel with
  | zero =>
    intro p k h
    have hp : N ≤ p := by simpa using h
    show N ≤ p * b ^ (k - k)
    simpa using hp
  | succ f ih =>
    intro p k h
    rw [ceil_log_go]
    by_cases hc : N ≤ p
    · rw [if_pos hc]; simpa using hc
    · rw [if_neg hc]
      have h' : N ≤ (p * b) * b ^ f := by
        rw [Nat.pow_succ] at h
        calc N ≤ p * (b ^ f * b) := h
          _ = p * b * b ^ f := by ring
      have hk : k + 1 ≤ ceil_log_go b N f (p * b) (k + 1) := ceil_log_go_le f (p * b) (k + 1)
      have hrec := ih (p * b) (k + 1) h'
      have hr : ceil_log_go b N f (p * b) (k + 1) - k =
          (ceil_log_go b N f (p * b) (k + 1) - (k + 1)) + 1 := by omega
      rw [hr, Nat.pow_succ]
      calc N ≤ p * b * b ^ (ceil_log_go b N f (p * b) (k + 1) - (k + 1)) := hrec
        _ = p * (b ^ (ceil_log_go b N f (p * b) (k + 1) - (k + 1)) * b) := by ring

theorem pad_length_for_spec {b : Nat} (hb : 2 ≤ b) :
    2 ^ 128 ≤ b ^ pad_length_for b := by
  have h : (2 : Nat) ^ 128 ≤ 1 * b ^ 129 := by
    have h1 : (2 : Nat) ^ 128 ≤ 2 ^ 129 := Nat.pow_le_pow_right (by omega) (by omega)
    have h2 : (2 : Nat) ^ 129 ≤ b ^ 129 := Nat.pow_le_pow_left hb 129
    omega
  simpa using ceil_log_go_spec 129 1 0 h

theorem pad_length_for_pos (b : Nat) : 1 ≤ pad_length_for b := by
  show 1 ≤ ceil_log_go b (2 ^ 128) (128 + 1) 1 0
  rw [ceil_log_go, if_neg (by norm_num : ¬ (2 : Nat) ^ 128 ≤ 1)]
  exact ceil_log_go_le 128 (1 * b) 1

/-! ### Output length -/

theorem digits_len_le_of_lt_pow {b n L : Nat} (hb : 1 < b) (h : n < b ^ L) :
    (Nat.digits b n).length ≤ L := by
  rcases Nat.eq_zero_or_pos n with rfl | hn
  · simp
  · by_contra hlen
    push_neg at hlen
    have h1 : b ^ (Nat.digits b n).length ≤ b * n :=
      Nat.base_pow_length_digits_le b n hb (by omega)
    have h2 : b ^ (L + 1) ≤ b ^ (Nat.digits b n).length :=
      Nat.pow_le_pow_right (by omega) (by omega)
    have h3 : b * b ^ L ≤ b * n := by
      have hs : b ^ (L + 1) = b * b ^ L := by ring
      omega
    have h4 : b ^ L ≤ n := Nat.le_of_mul_le_mul_left h3 (by omega)
    omega

theorem int_to_string_length {A : List Char} {n p : Nat} (hb : 2 ≤ A.length)
    (hd : (Nat.digits A.length n).length ≤ p) :
    (int_to_string n A (some p)).length = p := by
  rw [int_to_string_shape, List.length_append, List.length_replicate,
    List.length_reverse, List.length_map, int_to_string_digits_eq hb]
  omega

theorem encode_length_core {a : List Char} {f : Bool} {su : ShortUUID}
    (h : set_alphabet a f = .ok su) (u : Nat) (hu : u < 2 ^ 128) :
    (su.encode u none).length = su._length := by
  obtain ⟨ha, -, -, hlenf, -, hlen2⟩ := set_alphabet_ok_state h
  show (int_to_string u su._alphabet (some su._length)).length = su._length
  rw [ha, hlenf]
  exact int_to_string_length hlen2
    (digits_len_le_of_lt_pow (by omega)
      (lt_of_lt_of_le hu (pad_length_for_spec hlen2)))

theorem encoded_length_eq_length {a : List Char} {f : Bool} {su : ShortUUID}
    (h : set_alphabet a f = .ok su) :
    su.encoded_length 16 = su._length := by
  obtain ⟨-, -, hal, hlenf, -, -⟩ := set_alphabet_ok_state h
  have h16 : (256 : Nat) ^ 16 = 2 ^ 128 := by norm_num
  rw [ShortUUID.encoded_length, hal, hlenf, pad_length_for, h16]

/-! ### Decode errors -/

theorem dict_get_build_eq_none_iff (A : List Char) (c : Char) :
    dict_get (build_alphabet_index A) c = none ↔ c ∉ A := by
  constructor
  · intro h hmem
    have hs := dict_get_build_from_isSome A 0 hmem
    rw [show build_from 0 A = build_alphabet_index A from rfl, h] at hs
    simp at hs
  · exact dict_get_build_from_of_not_mem A 0

theorem string_to_int_go_error (b : Nat) (idx : List (Char × Nat)) :
    ∀ (s : List Char) (acc : Nat), (∃ c ∈ s, dict_get idx c = none) →
      ∃ c, c ∈ s ∧ dict_get idx c = none ∧
        string_to_int_go b idx acc s = .error c := by
  intro s
  induction s with
  | nil =>
    intro acc h
    obtain ⟨c, hc, -⟩ := h
    simp at hc
  | cons c0 t ih =>
    intro acc h
    cases hl : dict_get idx c0 with
    | none =>
      exact ⟨c0, List.mem_cons_self c0 t, hl, by simp [string_to_int_go, hl]⟩
    | some i =>
      have h' : ∃ c ∈ t, dict_get idx c = none := by
        obtain ⟨c, hc, hnone⟩ := h
        rcases List.mem_cons.mp hc with rfl | hct
        · rw [hl] at hnone; exact absurd hnone (by simp)
        · exact ⟨c, hct, hnone⟩
      obtain ⟨c, hct, hnone, he⟩ := ih (acc * b + i) h'
      exact ⟨c, List.mem_cons_of_mem _ hct, hnone, by simp [string_to_int_go, hl, he]⟩

/-- Unfolding of `decode` with `legacy = false`: the underlying fold followed
by the range check of the UUID constructor. -/
theorem decode_as_go (su : ShortUUID) (s : List Char) :
    su.decode s false =
      match string_to_int_go su._alphabet.length su._alphabet_index 0 s with
      | .error c => .error (.invalidCharacter c)
      | .ok n => if n < 2 ^ 128 then .ok n else .error .uuidOutOfRange := rfl

/-! ### Claim theorems -/

/-- C1: for every 128-bit UUID value `u` and every valid alphabet
configuration (an alphabet normalizing to at least two unique symbols, sorted
or order-preserving), `decode (encode u) = u` with no pad-length override and
`legacy = false`. -/
theorem C1_decode_encode_roundtrip (a : List Char) (f : Bool) (su : ShortUUID)
    (h : set_alphabet a f = .ok su) (u : Nat) (hu : u < 2 ^ 128) :
    su.decode (su.encode u none) false = .ok u :=
  decode_encode_core h u hu none

/-- Witness for C1: the default alphabet configuration and a concrete UUID
value. -/
theorem C1_witness :
    set_alphabet DEFAULT_ALPHABET false = .ok _global_instance ∧
    _global_instance.decode
        (_global_instance.encode 0x3b1f8b40222c4a6eb77e779d5a94e21c none) false =
      .ok 0x3b1f8b40222c4a6eb77e779d5a94e21c :=
  ⟨rfl, C1_decode_encode_roundtrip DEFAULT_ALPHABET false _global_instance rfl
      0x3b1f8b40222c4a6eb77e779d5a94e21c (by norm_num)⟩

/-- C2: under any fixed valid alphabet configuration, with no explicit
pad-length argument, `len (encode u)` is one constant equal to
`encoded_length()` (default `num_bytes = 16`); under the default 57-symbol
alphabet that constant is 22. -/
theorem C2_fixed_width (a : List Char) (f : Bool) (su : ShortUUID)
    (h : set_alphabet a f = .ok su) :
    (∀ u, u < 2 ^ 128 → (su.encode u none).length = su.encoded_length 16) ∧
    _global_instance.encoded_length 16 = 22 ∧
    (∀ u, u < 2 ^ 128 → (_global_instance.encode u none).length = 22) := by
  refine ⟨?_, by decide, ?_⟩
  · intro u hu
    rw [encode_length_core h u hu, encoded_length_eq_length h]
  · intro u hu
    rw [@encode_length_core DEFAULT_ALPHABET false _global_instance rfl u hu]
    decide

/-- Witness for C2 at the default alphabet configuration. -/
theorem C2_witness :
    set_alphabet DEFAULT_ALPHABET false = .ok _global_instance ∧
    (_global_instance.encode 12345 none).length = _global_instance.encoded_length 16 :=
  ⟨rfl, (C2_fixed_width DEFAULT_ALPHABET false _global_instance rfl).1 12345 (by norm_num)⟩

/-- C5: every string `s` produced by `encode` under a valid alphabet
configuration with the default (canonical) pad length satisfies
`encode (decode s) = s`. -/
theorem C5_encode_decode_roundtrip (a : List Char) (f : Bool) (su : ShortUUID)
    (h : set_alphabet a f = .ok su) (u : Nat) (hu : u < 2 ^ 128)
    (s : List Char) (hs : s = su.encode u none) :
    ∃ v, su.decode s false = .ok v ∧ su.encode v none = s := by
  subst hs
  exact ⟨u, decode_encode_core h u hu none, rfl⟩

/-- Witness for C5: a concrete encoded string under the default alphabet. -/
theorem C5_witness :
    ∃ v, _global_instance.decode (_global_instance.encode 7 none) false = .ok v ∧
      _global_instance.encode v none = _global_instance.encode 7 none :=
  C5_encode_decode_roundtrip DEFAULT_ALPHABET false _global_instance rfl 7
    (by norm_num) _ rfl

/-- C3: a string containing a symbol outside the configured alphabet makes
`decode` fail with an invalid-character error naming an offending symbol, and
never yields a UUID for such a string. -/
theorem C3_decode_invalid_character (a : List Char) (f : Bool) (su : ShortUUID)
    (h : set_alphabet a f = .ok su) (s : List Char)
    (hbad : ∃ c ∈ s, c ∉ su._alphabet) :
    ∃ c, c ∈ s ∧ c ∉ su._alphabet ∧
      su.decode s false = .error (.invalidCharacter c) := by
  obtain ⟨ha, hidx, -, -, -, -⟩ := set_alphabet_ok_state h
  have hidx' : su._alphabet_index = build_alphabet_index su._alphabet := by
    rw [ha, hidx]
  have hbad' : ∃ c ∈ s, dict_get su._alphabet_index c = none := by
    obtain ⟨c, hc, hnmem⟩ := hbad
    exact ⟨c, hc, by rw [hidx']; exact (dict_get_build_eq_none_iff _ _).mpr hnmem⟩
  obtain ⟨c, hc, hnone, he⟩ :=
    string_to_int_go_error su._alphabet.length su._alphabet_index s 0 hbad'
  refine ⟨c, hc, ?_, ?_⟩
  · rw [hidx'] at hnone
    exact (dict_get_build_eq_none_iff _ _).mp hnone
  · rw [decode_as_go, he]

/-- Witness for C3: `'0'` is outside the default alphabet. -/
theorem C3_witness :
    ∃ c, c ∈ ['0'] ∧ c ∉ _global_instance._alphabet ∧
      _global_instance.decode ['0'] false = .error (.invalidCharacter c) :=
  C3_decode_invalid_character DEFAULT_ALPHABET false _global_instance rfl ['0']
    ⟨'0', by decide, by decide⟩

/-- C4: `int_to_string` returns the most-significant-first base-N digits of
`n` rendered through the alphabet (empty when `n = 0`); given a pad length it
left-pads with `alphabet[0]` to exactly that length when the raw output is
shorter, returns the raw output unchanged when the pad length is absent, and
never truncates (the output length is the max of pad length and raw
length). -/
theorem C4_int_to_string_padding (n : Nat) (A : List Char) (p : Nat)
    (hb : 2 ≤ A.length) :
    int_to_string n A none =
      ((Nat.digits A.length n).map (fun d => A.getD d ' ')).reverse ∧
    (n = 0 → int_to_string n A none = []) ∧
    int_to_string n A (some p) =
      List.replicate (p - (Nat.digits A.length n).length) (A.getD 0 ' ') ++
        ((Nat.digits A.length n).map (fun d => A.getD d ' ')).reverse ∧
    (int_to_string n A (some p)).length = max p (Nat.digits A.length n).length := by
  have hd := int_to_string_digits_eq hb n
  refine ⟨?_, ?_, ?_, ?_⟩
  · rw [int_to_string_none, hd]
  · intro h0
    subst h0
    rw [int_to_string_none, hd]
    simp
  · rw [int_to_string_shape, hd]
  · rw [int_to_string_shape, List.length_append, List.length_replicate,
      List.length_reverse, List.length_map, hd]
    omega

/-- Witness for C4 at a concrete value and pad length. -/
theorem C4_witness :
    2 ≤ DEFAULT_ALPHABET.length ∧
    (int_to_string 5 DEFAULT_ALPHABET (some 3)).length =
      max 3 (Nat.digits DEFAULT_ALPHABET.length 5).length :=
  ⟨by decide, (C4_int_to_string_padding 5 DEFAULT_ALPHABET 3 (by decide)).2.2.2⟩

/-- C9: for a string whose symbols all resolve against the configured
alphabet (the fold succeeds with value `n`), `decode` returns a UUID exactly
when `n < 2 ^ 128`; otherwise it surfaces the range error of the UUID constructor
rather than a truncated or wrapped value. -/
theorem C9_decode_range (a : List Char) (f : Bool) (su : ShortUUID)
    ( _h : set_alphabet a f = .ok su) (s : List Char) (n : Nat)
    (hn : string_to_int s su._alphabet (some su._alphabet_index) = .ok n) :
    (2 ^ 128 ≤ n → su.decode s false = .error .uuidOutOfRange) ∧
    (n < 2 ^ 128 → su.decode s false = .ok n) ∧
    ((∃ u, su.decode s false = .ok u) ↔ n < 2 ^ 128) := by
  have hgo : string_to_int_go su._alphabet.length su._alphabet_index 0 s = .ok n := hn
  have hred : su.decode s false =
      (if n < 2 ^ 128 then (Except.ok n : Except DecodeError Nat)
        else .error .uuidOutOfRange) := by
    rw [decode_as_go, hgo]
  refine ⟨?_, ?_, ?_, ?_⟩
  · intro hge
    rw [hred, if_neg (by omega)]
  · intro hlt
    rw [hred, if_pos hlt]
  · rintro ⟨u, hu⟩
    by_contra hge
    rw [hred, if_neg hge] at hu
    exact absurd hu (by simp)
  · intro hlt
    exact ⟨n, by rw [hred, if_pos hlt]⟩

/-- Witness for C9: a short string decodes to a small value, hence a UUID. -/
theorem C9_witness :
    string_to_int ['2'] _global_instance._alphabet
        (some _global_instance._alphabet_index) = .ok 0 ∧
    _global_instance.decode ['2'] false = .ok 0 :=
  ⟨rfl, (C9_decode_range DEFAULT_ALPHABET false _global_instance rfl ['2'] 0 rfl).2.1
    (by norm_num)⟩

/-- C6: concrete scenario under the default alphabet: the UUID
`3b1f8b40-222c-4a6e-b77e-779d5a94e21c` (as its 128-bit integer) encodes to
exactly `"CXc85b4rqinB7s5J52TRYb"`, and that string decodes back to exactly
the same UUID. -/
theorem C6_concrete :
    _global_instance.encode 0x3b1f8b40222c4a6eb77e779d5a94e21c none =
      "CXc85b4rqinB7s5J52TRYb".toList ∧
    _global_instance.decode ("CXc85b4rqinB7s5J52TRYb".toList) false =
      .ok 0x3b1f8b40222c4a6eb77e779d5a94e21c := by
  exact ⟨by decide, by rfl⟩

/-- C7: an alphabet normalizing to at most one unique symbol makes
construction and `set_alphabet` fail with `InvalidAlphabet`, and only such
alphabets do; the error arises at configuration time only — once
construction has succeeded, every `encode` call through the pipeline returns
a string, never this error. -/
theorem C7_invalid_alphabet (a : List Char) (f : Bool) :
    ((normalize_alphabet a f).length ≤ 1 ↔
      set_alphabet a f = .error .invalidAlphabet) ∧
    (∀ u p, (normalize_alphabet a f).length ≤ 1 →
      (set_alphabet a f).map (fun su => su.encode u p) = .error .invalidAlphabet) ∧
    (∀ u p su, set_alphabet a f = .ok su →
      (set_alphabet a f).map (fun su => su.encode u p) = .ok (su.encode u p)) := by
  refine ⟨⟨fun h => set_alphabet_error_of_short h, fun h => ?_⟩, ?_, ?_⟩
  · by_contra hlen
    push_neg at hlen
    unfold set_alphabet at h
    rw [if_neg (by omega)] at h
    exact absurd h (by simp)
  · intro u p hshort
    rw [set_alphabet_error_of_short hshort]
    rfl
  · intro u p su hok
    rw [hok]
    rfl

/-- Witness for C7: `"aa"` normalizes to a single symbol and is rejected. -/
theorem C7_witness :
    (normalize_alphabet ("aa".toList) false).length ≤ 1 ∧
    set_alphabet ("aa".toList) false = .error .invalidAlphabet :=
  ⟨by decide, (C7_invalid_alphabet ("aa".toList) false).1.mp (by decide)⟩

/-- C10: a failing `set_alphabet` call is atomic: it returns the old state
together with the error, so subsequent `get_alphabet`, `encode` and `decode`
observe the previously configured alphabet unchanged. -/
theorem C10_set_alphabet_atomic (s : ShortUUID) (a : List Char) (f : Bool)
    (hbad : (normalize_alphabet a f).length ≤ 1) :
    set_alphabet_on s a f = (s, some .invalidAlphabet) ∧
    (set_alphabet_on s a f).1.get_alphabet = s.get_alphabet ∧
    (∀ u p, (set_alphabet_on s a f).1.encode u p = s.encode u p) ∧
    (∀ t l, (set_alphabet_on s a f).1.decode t l = s.decode t l) := by
  have h : set_alphabet_on s a f = (s, some .invalidAlphabet) := by
    unfold set_alphabet_on
    rw [set_alphabet_error_of_short hbad]
  exact ⟨h, by rw [h], fun u p => by rw [h], fun t l => by rw [h]⟩

/-- Witness for C10: a rejected alphabet leaves the default instance
untouched. -/
theorem C10_witness :
    (normalize_alphabet ("aa".toList) false).length ≤ 1 ∧
    set_alphabet_on _global_instance ("aa".toList) false =
      (_global_instance, some .invalidAlphabet) :=
  ⟨by decide,
    (C10_set_alphabet_atomic _global_instance ("aa".toList) false (by decide)).1⟩

/-! ### C8: duplicate-insensitivity of normalization -/

theorem dict_fromkeys_go_dup (c : Char) (ys : List Char) :
    ∀ (xs seen : List Char), (c ∈ xs ∨ c ∈ seen) →
      dict_fromkeys_go seen (xs ++ c :: ys) = dict_fromkeys_go seen (xs ++ ys) := by
  intro xs
  induction xs with
  | nil =>
    intro seen h
    have hc : c ∈ seen := h.resolve_left (by simp)
    show dict_fromkeys_go seen (c :: ys) = dict_fromkeys_go seen ys
    rw [dict_fromkeys_go, if_pos hc]
  | cons x t ih =>
    intro seen h
    show dict_fromkeys_go seen (x :: (t ++ c :: ys)) =
      dict_fromkeys_go seen (x :: (t ++ ys))
    by_cases hx : x ∈ seen
    · rw [dict_fromkeys_go, if_pos hx, dict_fromkeys_go, if_pos hx]
      apply ih
      rcases h with h | h
      · rcases List.mem_cons.mp h with rfl | h'
        · exact Or.inr hx
        · exact Or.inl h'
      · exact Or.inr h
    · rw [dict_fromkeys_go, if_neg hx, dict_fromkeys_go, if_neg hx]
      congr 1
      apply ih
      rcases h with h | h
      · rcases List.mem_cons.mp h with rfl | h'
        · exact Or.inr (List.mem_cons_self _ _)
        · exact Or.inl h'
      · exact Or.inr (List.mem_cons_of_mem _ h)

theorem dict_fromkeys_dup (xs : List Char) (c : Char) (ys : List Char)
    (h : c ∈ xs) :
    dict_fromkeys (xs ++ c :: ys) = dict_fromkeys (xs ++ ys) :=
  dict_fromkeys_go_dup c ys xs [] (Or.inl h)

theorem sorted_set_ext {a a' : List Char} (hmem : ∀ c, c ∈ a ↔ c ∈ a') :
    sorted_set a = sorted_set a' := by
  refine List.eq_of_perm_of_sorted ?_
    (List.sorted_insertionSort _ _) (List.sorted_insertionSort _ _)
  exact (List.perm_ext_iff_of_nodup (nodup_sorted_set a) (nodup_sorted_set a')).mpr
    (fun x => by rw [mem_sorted_set, mem_sorted_set]; exact hmem x)

theorem normalize_length_ext {a a' : List Char} (f : Bool)
    (hmem : ∀ c, c ∈ a ↔ c ∈ a') :
    (normalize_alphabet a f).length = (normalize_alphabet a' f).length :=
  List.Perm.length_eq
    ((List.perm_ext_iff_of_nodup (nodup_normalize a f) (nodup_normalize a' f)).mpr
      (fun x => by rw [mem_normalize, mem_normalize]; exact hmem x))

/-- C8 counterexample: in preserve-order mode, inserting a duplicate `'b'` at
the front of the alphabet `"ab"` (giving `"bab"`) changes the canonical
alphabet from `"ab"` to `"ba"`, so inserting duplicate symbols can change the
resulting canonical alphabet, refuting the claim as stated. -/
theorem C8_counterexample :
    "bab".toList = ['b'] ++ "ab".toList ∧ 'b' ∈ "ab".toList ∧
    (set_alphabet ("ab".toList) true).map ShortUUID.get_alphabet = .ok ("ab") ∧
    (set_alphabet ("bab".toList) true).map ShortUUID.get_alphabet = .ok ("ba") ∧
    (set_alphabet ("bab".toList) true).map ShortUUID.get_alphabet ≠
      (set_alphabet ("ab".toList) true).map ShortUUID.get_alphabet := by
  have hab : (set_alphabet ("ab".toList) true).map ShortUUID.get_alphabet = .ok ("ab") := rfl
  have hba : (set_alphabet ("bab".toList) true).map ShortUUID.get_alphabet = .ok ("ba") := rfl
  refine ⟨rfl, by decide, hab, hba, ?_⟩
  rw [hab, hba]
  simp

/-- C8 (amended): `set_alphabet` is idempotent — repeating a call leaves the
state as after one call; in default sorted mode the canonical alphabet
depends only on the set of symbols, so inserting duplicate symbols anywhere
never changes it; duplicate insertions never change the canonical
alphabet length in either mode; in preserve-order mode the canonical alphabet is the
deduplicated symbols in first-occurrence order, so inserting a duplicate
after the first occurrence of its symbol never changes it (only a duplicate
inserted before the first occurrence can reorder it). -/
theorem C8_amended :
    (∀ (s : ShortUUID) (a : List Char) (f : Bool),
      set_alphabet_on (set_alphabet_on s a f).1 a f = set_alphabet_on s a f) ∧
    (∀ a a' : List Char, (∀ c, c ∈ a ↔ c ∈ a') →
      set_alphabet a false = set_alphabet a' false) ∧
    (∀ (a a' : List Char) (f : Bool), (∀ c, c ∈ a ↔ c ∈ a') →
      (normalize_alphabet a f).length = (normalize_alphabet a' f).length) ∧
    (∀ (xs : List Char) (c : Char) (ys : List Char), c ∈ xs →
      set_alphabet (xs ++ c :: ys) true = set_alphabet (xs ++ ys) true) := by
  refine ⟨?_, ?_, ?_, ?_⟩
  · intro s a f
    unfold set_alphabet_on
    cases h : set_alphabet a f <;> simp [h]
  · intro a a' hmem
    have hnorm : normalize_alphabet a false = normalize_alphabet a' false :=
      sorted_set_ext hmem
    simp only [set_alphabet, hnorm]
  · intro a a' f hmem
    exact normalize_length_ext f hmem
  · intro xs c ys hc
    have hnorm : normalize_alphabet (xs ++ c :: ys) true =
        normalize_alphabet (xs ++ ys) true := dict_fromkeys_dup xs c ys hc
    simp only [set_alphabet, hnorm]

/-- Witness for C8 (amended): concrete duplicate-insensitive inputs. -/
theorem C8_witness :
    (∀ c, c ∈ "ba".toList ↔ c ∈ "aab".toList) ∧
    set_alphabet ("ba".toList) false = set_alphabet ("aab".toList) false ∧
    'a' ∈ "ab".toList ∧
    set_alphabet ("ab".toList ++ 'a' :: "c".toList) true =
      set_alphabet ("ab".toList ++ "c".toList) true :=
  ⟨by intro c; show c ∈ ['b', 'a'] ↔ c ∈ ['a', 'a', 'b']; simp [List.mem_cons]; tauto,
    C8_amended.2.1 ("ba".toList) ("aab".toList)
      (by intro c; show c ∈ ['b', 'a'] ↔ c ∈ ['a', 'a', 'b']; simp [List.mem_cons]; tauto),
    by decide,
    C8_amended.2.2.2 ("ab".toList) 'a' "c".toList (by decide)⟩

end Shortuuid
